import Mathlib

/-!
# A verification model of the 2QLevelDB MemTable (hot/cold separated skiplist)

This file gives a shallow embedding of the MemTable core of the repository:
the FIFO hot/cold chain threaded through skiplist nodes (`db/skiplist.h`,
class `SkipList::FIFO`), the skiplist level-0 chain, and the MemTable
operations `Add`, `Get` and `Seperate` (`db/memtable.cc`).

Modelling conventions:
* Nodes are immutable records (`Entry`): node id, user key bytes, the 64-bit
  tag `(sequence << 8) | type`, value bytes and the FIFO `byte_size`.  The
  byte size (arena node memory + encoded entry length, which in the source
  depends on the node height drawn from the deterministic PRNG) is carried
  as an explicit field.
* The mutable FIFO pointers `FIFO_next` / `FIFO_prev` of the nodes are a
  store indexed by node id (`FifoSt.nxt` / `FifoSt.prv`), because the code
  reuses them for the obsolete list; `head_`, `cold_head_`, `normal_head_`,
  `cur_node_` and `obsolete_` are optional node ids.
* `hot_mem` / `cold_mem` are `size_t` counters: all arithmetic on them is
  modulo `W = 2^64` (`wadd` / `wsub`), faithfully wrapping on underflow.
* The skiplist's level-0 forward chain is the sorted list `MemState.sl`;
  `FindGreaterOrEqual` at level 0 is "drop elements strictly below the key".
-/

namespace TwoQ

/-- `2^64`, the modulus of all `size_t` arithmetic. -/
def W : Nat := 18446744073709551616

/-- `size_t` addition (wraps modulo `2^64`). -/
def wadd (a b : Nat) : Nat := (a + b) % W

/-- `size_t` subtraction (wraps modulo `2^64`). -/
def wsub (a b : Nat) : Nat := (a + (W - b % W)) % W

/-- Modelled from the spec: the bytewise user-key comparator
(`Slice::compare`, `leveldb/slice.h` is not under `src/`): memcmp order,
with a shorter string sorting before any proper extension. -/
def sliceCmp : List Nat → List Nat → Int
  | [], [] => 0
  | [], _ :: _ => -1
  | _ :: _, [] => 1
  | a :: as, b :: bs => if a < b then -1 else if b < a then 1 else sliceCmp as bs

/-- A skiplist node's immutable content: id, user key, 64-bit tag
`(seq << 8) | type`, value bytes, and the FIFO byte size. -/
structure Entry where
  nid : Nat
  ukey : List Nat
  tag : Nat
  value : List Nat
  size : Nat
deriving DecidableEq, Repr

/-- Tag comparison of the internal-key comparator: sequence (and type)
descending, so the larger 64-bit tag word sorts first. -/
def cmpTag (x y : Nat) : Int := if x > y then -1 else if x < y then 1 else 0

/-- Modelled from the spec: `InternalKeyComparator::Compare`
(`db/dbformat.cc` is not under `src/`): user key ascending, then the 64-bit
tag descending.  Compares an entry against a raw (user key, tag) probe. -/
def cmpK (e : Entry) (u : List Nat) (t : Nat) : Int :=
  if sliceCmp e.ukey u = 0 then cmpTag e.tag t else sliceCmp e.ukey u

/-- Internal-key comparison of two entries. -/
def cmpIK (a b : Entry) : Int := cmpK a b.ukey b.tag

/-- `MemTable::CompareSequence` (`db/memtable.cc:39`): decodes the trailing
8 tag bytes of both entries and compares the full 64-bit words; negative
when `a` is newer, positive when `a` is older. -/
def CompareSequence (a b : Entry) : Int := cmpTag a.tag b.tag

/-- The FIFO chain state of `SkipList::FIFO` plus the node store.
`nodes` is indexed by node id (allocation order); `nxt`/`prv` are the
mutable `FIFO_next`/`FIFO_prev` pointer fields of each node. -/
structure FifoSt where
  nodes : List Entry
  nxt : List (Option Nat)
  prv : List (Option Nat)
  headP : Option Nat
  coldP : Option Nat
  normalP : Option Nat
  tailP : Option Nat
  obsP : Option Nat
  hot : Nat
  cold : Nat
  threshold : Nat
deriving DecidableEq, Repr

/-- Read a node's `FIFO_next` pointer. -/
def nxtOf (st : FifoSt) (i : Nat) : Option Nat := (st.nxt.get? i).getD none

/-- Read a node's `FIFO_prev` pointer. -/
def prvOf (st : FifoSt) (i : Nat) : Option Nat := (st.prv.get? i).getD none

/-- Read a node's `byte_size` (`Show_Node_Size`). -/
def sizeOfN (st : FifoSt) (i : Nat) : Nat := ((st.nodes.get? i).map Entry.size).getD 0

/-- Write a node's `FIFO_next` pointer. -/
def setNxt (st : FifoSt) (i : Nat) (v : Option Nat) : FifoSt :=
  { st with nxt := st.nxt.set i v }

/-- Write a node's `FIFO_prev` pointer. -/
def setPrv (st : FifoSt) (i : Nat) (v : Option Nat) : FifoSt :=
  { st with prv := st.prv.set i v }

/-- The freeze walk of `FIFO::FreezeNode` (`db/skiplist.h:404-412`):
`tmp = normal_head_; sum = 0; while (sum < Move_Size) { if (!tmp) break;
sum += tmp->size; tmp = tmp->FIFO_Next(); }`.  Fuel-bounded; called with
fuel `nodes.length + 1`, enough for every null-terminated pointer walk. -/
def freezeWalk (st : FifoSt) : Nat → Option Nat → Nat → Nat → Nat × Option Nat
  | 0, tmp, sum, _ => (sum, tmp)
  | fuel + 1, tmp, sum, m =>
    if sum < m then
      match tmp with
      | none => (sum, none)
      | some i => freezeWalk st fuel (nxtOf st i) (wadd sum (sizeOfN st i)) m
    else (sum, tmp)

/-- `FIFO::FreezeNode` (`db/skiplist.h:385-424`): if
`hot + x.size < threshold` do nothing; otherwise (note: this also runs when
the sum *equals* the threshold) migrate bytes from the hot zone to the cold
zone by walking forward from `normal_head_`. -/
def FreezeNode (st : FifoSt) (x : Entry) : FifoSt :=
  if wadd st.hot x.size < st.threshold then st
  else if st.normalP = none then st
  else
    let moveSize := wsub (wadd st.hot x.size) st.threshold
    let st1 := if st.coldP = none then { st with coldP := st.headP } else st
    let w := freezeWalk st1 (st1.nodes.length + 1) st1.normalP 0 moveSize
    { st1 with
      normalP := w.2
      hot := wsub st1.hot w.1
      cold := wadd st1.cold w.1 }

/-- `FIFO::ObsoleteNode` (`db/skiplist.h:429-444`): if the obsolete list is
empty, `x` becomes its head with null links; otherwise
`x->next = obsolete_->next; obsolete_->next = x` (insertion *after* the
fixed first element). -/
def ObsoleteNode (st : FifoSt) (x : Nat) : FifoSt :=
  match st.obsP with
  | none => setPrv (setNxt { st with obsP := some x } x none) x none
  | some o =>
    let st1 := setNxt st x (nxtOf st o)
    setNxt st1 o (some x)

/-- `FIFO::DeleteNode` (`db/skiplist.h:446-503`): the unlink step of Thaw.
`r > 0` shrinks `cold_mem`, otherwise `hot_mem`; then the head / normal-head
special cases, then the generic splice; finally `ObsoleteNode`.
Note: when `x == head_ == cold_head_`, only `cold_head_` is advanced, even
if `x` is also `normal_head_`. -/
def DeleteNode (st : FifoSt) (x : Nat) (r : Int) : FifoSt :=
  let pv := prvOf st x
  let nx := nxtOf st x
  let st :=
    if r > 0 then { st with cold := wsub st.cold (sizeOfN st x) }
    else { st with hot := wsub st.hot (sizeOfN st x) }
  if st.headP = some x then
    let st :=
      if st.coldP = some x then
        let c2 := nx
        let st := { st with coldP := c2 }
        match c2 with
        | some j => setPrv st j none
        | none => st
      else if st.normalP = some x then
        let n2 := nx
        let st := { st with normalP := n2 }
        match n2 with
        | some j => setPrv st j none
        | none => st
      else st
    ObsoleteNode { st with headP := nx } x
  else if st.normalP = some x then
    let st := { st with normalP := nx }
    let st := match pv with | some p => setNxt st p nx | none => st
    let st := match nx with | some q => setPrv st q pv | none => st
    ObsoleteNode st x
  else
    let st := match pv with | some p => setNxt st p nx | none => st
    let st := match nx with | some q => setPrv st q pv | none => st
    ObsoleteNode st x

/-- `FIFO::Insert` (`db/skiplist.h:506-551`): freeze pass, classification of
`x` (first node / hot zone empty / normal case), then linking at the tail. -/
def FIFOInsert (st : FifoSt) (x : Entry) : FifoSt :=
  let st := FreezeNode st x
  if st.headP = none then
    if x.size ≤ st.threshold then
      { st with normalP := some x.nid, headP := some x.nid, tailP := some x.nid,
                hot := wadd st.hot x.size }
    else
      { st with coldP := some x.nid, headP := some x.nid, tailP := some x.nid,
                cold := wadd st.cold x.size }
  else
    let st :=
      if st.normalP = none then
        if x.size ≤ st.threshold then
          { st with normalP := some x.nid, hot := wadd st.hot x.size }
        else
          let st := if st.coldP = none then { st with coldP := st.headP } else st
          { st with cold := wadd st.cold x.size }
      else { st with hot := wadd st.hot x.size }
    let st := setPrv st x.nid st.tailP
    let st := match st.tailP with | some t => setNxt st t (some x.nid) | none => st
    { st with tailP := match st.tailP with | some t => nxtOf st t | none => st.tailP }

/-- The whole MemTable state: the FIFO chain and the skiplist level-0
forward chain (sorted by internal key, newest version of a user key first). -/
structure MemState where
  fifo : FifoSt
  sl : List Entry
deriving DecidableEq, Repr

/-- A fresh MemTable (`MemTable::MemTable` with `hot_threshold_bytes`). -/
def memInit (threshold : Nat) : MemState :=
  { fifo := { nodes := [], nxt := [], prv := [], headP := none, coldP := none,
              normalP := none, tailP := none, obsP := none, hot := 0, cold := 0,
              threshold := threshold },
    sl := [] }

/-- `SkipList::Insert` at level 0: link the new node before the first node
that is greater than or equal to it (`FindGreaterOrEqual` + splice). -/
def slInsert (sl : List Entry) (x : Entry) : List Entry :=
  match sl with
  | [] => [x]
  | e :: t => if cmpIK e x < 0 then e :: slInsert t x else x :: e :: t

/-- The entry `normal_head_` points at (`FIFO_Iterator::SeekToNormal` +
`key()`), if any. -/
def normalEntry (st : MemState) : Option Entry :=
  st.fifo.normalP.bind fun i => st.fifo.nodes.get? i

/-- The duplicate detection of `MemTable::Add` (`db/memtable.cc:163-177`):
seek to the just-inserted entry, step one forward, and test whether the
next node carries the same user key. -/
def detectDup (sl : List Entry) (x : Entry) : Option Entry :=
  match sl.dropWhile (fun e => cmpIK e x < 0) with
  | _ :: y :: _ => if sliceCmp y.ukey x.ukey = 0 then some y else none
  | _ => none

/-- `SkipList::ThrawNode` (`db/skiplist.h:865-871`): find the node of the
given key by `FindGreaterOrEqual` and delete it from the FIFO chain. -/
def ThrawNode (st : MemState) (key : Entry) (r : Int) : MemState :=
  match st.sl.dropWhile (fun e => cmpIK e key < 0) with
  | y :: _ => { st with fifo := DeleteNode st.fifo y.nid r }
  | [] => st

/-- The insertion half of `MemTable::Add`: allocate the node (fresh id,
null FIFO pointers), publish it in the skiplist, run `FIFO::Insert`. -/
def AddInsert (st : MemState) (u : List Nat) (seq ty : Nat) (v : List Nat)
    (sz : Nat) : MemState × Entry :=
  let x : Entry := { nid := st.fifo.nodes.length, ukey := u, tag := seq * 256 + ty,
                     value := v, size := sz }
  let f1 : FifoSt := { st.fifo with
                         nodes := st.fifo.nodes ++ [x]
                         nxt := st.fifo.nxt ++ [none]
                         prv := st.fifo.prv ++ [none] }
  ({ fifo := FIFOInsert f1 x, sl := slInsert st.sl x }, x)

/-- The Thaw decision of `MemTable::Add` (`db/memtable.cc:183-195`): the
superseded node `y` and the sign `r` handed to `ThrawNode` — `r` is
`CompareSequence(entry, normal_key)` where `entry` is the *older duplicate*,
or the constant `1` when the hot zone is empty. -/
def AddDetect (st : MemState) (x : Entry) : Option (Entry × Int) :=
  match detectDup st.sl x with
  | none => none
  | some y =>
    match normalEntry st with
    | some n => some (y, CompareSequence y n)
    | none => some (y, 1)

/-- `MemTable::Add` (`db/memtable.cc:127-199`): encode + skiplist insert +
FIFO insert, then duplicate detection and Thaw.  `sz` is the node's FIFO
byte size (arena node memory + encoded entry length). -/
def MemAdd (st : MemState) (u : List Nat) (seq ty : Nat) (v : List Nat)
    (sz : Nat) : MemState :=
  let p := AddInsert st u seq ty v sz
  match AddDetect p.1 p.2 with
  | none => p.1
  | some yr => ThrawNode p.1 yr.1 yr.2

/-- One `Add` call of a test trace. -/
structure AddOp where
  ukey : List Nat
  seq : Nat
  ty : Nat
  value : List Nat
  size : Nat
deriving DecidableEq, Repr

/-- Run a list of `Add` calls. -/
def runAdds (st : MemState) (ops : List AddOp) : MemState :=
  ops.foldl (fun s o => MemAdd s o.ukey o.seq o.ty o.value o.size) st

/-- `MemTable::Get` (`db/memtable.cc:201-236`): seek the skiplist to the
lookup key `(user_key, (seq << 8) | kTypeValue)`; on a user-key match,
return the value for a Put (tag type 1) or set the NotFound status for a
Deletion (tag type 0); otherwise return `found = false` with the status
untouched.  Result: `(found, copied value, status set to NotFound)`. -/
def MemGet (st : MemState) (u : List Nat) (s : Nat) : Bool × Option (List Nat) × Bool :=
  match (st.sl.dropWhile (fun e => cmpK e u (s * 256 + 1) < 0)).head? with
  | none => (false, none, false)
  | some e =>
    if sliceCmp e.ukey u = 0 then
      if e.tag % 256 = 1 then (true, some e.value, false)
      else if e.tag % 256 = 0 then (true, none, true)
      else (false, none, false)
    else (false, none, false)

/-- `SkipList::FindNextKey` (`db/skiplist.h:874-891`): advance to the first
following node whose user key differs from `u`. -/
def FindNextKey (u : List Nat) (l : List Entry) : List Entry :=
  l.dropWhile (fun e => sliceCmp e.ukey u = 0)

/-- Does `SkipList::Seperate` keep this node?  (`normal_key == nullptr ||
CompareSequence(cur_key, normal_key) > 0`, i.e. the node is older than the
remembered normal-head tag.) -/
def coldKeep (ntag : Option Nat) (e : Entry) : Bool :=
  match ntag with
  | none => true
  | some t => decide (e.tag < t)

/-- `SkipList::Seperate` (`db/skiplist.h:894-916`): walk level 0, keeping
the visited nodes that pass `coldKeep` and advancing with `FindNextKey`
(which skips the older versions of the visited user key); the kept nodes
are relinked into the new level-0 chain, terminated by null.  The
`FindNextKey` advance is carried as a skip state: `some u` means the walk
is still skipping nodes whose user key equals `u`. -/
def Seperate (ntag : Option Nat) : Option (List Nat) → List Entry → List Entry
  | _, [] => []
  | some u, x :: t =>
    if sliceCmp x.ukey u = 0 then Seperate ntag (some u) t
    else if coldKeep ntag x then x :: Seperate ntag (some x.ukey) t
    else Seperate ntag (some x.ukey) t
  | none, x :: t =>
    if coldKeep ntag x then x :: Seperate ntag (some x.ukey) t
    else Seperate ntag (some x.ukey) t

/-- The first-cold search loop of `MemTable::Seperate`
(`db/memtable.cc:274-289`): walk the newest version of each user key until
one is older than the normal head (`CompareSequence(entry, normal_key) > 0`);
the `SeekToNextKey` advance is carried as a skip state as in `Seperate`. -/
def findFirstCold (ntag : Nat) : Option (List Nat) → List Entry → Option Entry
  | _, [] => none
  | some u, x :: t =>
    if sliceCmp x.ukey u = 0 then findFirstCold ntag (some u) t
    else if x.tag < ntag then some x else findFirstCold ntag (some x.ukey) t
  | none, x :: t =>
    if x.tag < ntag then some x else findFirstCold ntag (some x.ukey) t

/-- `MemTable::Seperate` (`db/memtable.cc:254-299`): if there is no hot
zone, rewrite the skiplist with `Seperate(nullptr)` and return true;
otherwise search for the first cold node, return false if there is none,
else `SetHead` to it (reset the sentinel's level-0 next to
`FindGreaterOrEqual` of its key) and run `Seperate(normal_key)`. -/
def MemSeperate (st : MemState) : MemState × Bool :=
  match normalEntry st with
  | none => ({ st with sl := Seperate none none st.sl }, true)
  | some n =>
    match findFirstCold n.tag none st.sl with
    | none => (st, false)
    | some x0 =>
      let sl1 := st.sl.dropWhile (fun e => cmpIK e x0 < 0)
      ({ st with sl := Seperate (some n.tag) none sl1 }, true)


/-- `SkipList::FindGreaterOrEqual` (`db/skiplist.h:720-744`) observed at
level 0: the first node whose internal key is at or after the probe
`(u, t)`, or none. -/
def FindGreaterOrEqual (sl : List Entry) (u : List Nat) (t : Nat) : Option Entry :=
  (sl.dropWhile (fun e => cmpK e u t < 0)).head?

/-- The skiplist level-0 chain is strictly sorted by the internal-key
comparator. -/
def sortedSL (l : List Entry) : Prop := l.Pairwise (fun a b => cmpIK a b < 0)

/-! ## Basic facts about the comparators -/

theorem sliceCmp_self : ∀ a : List Nat, sliceCmp a a = 0
  | [] => rfl
  | _ :: xs => by simp [sliceCmp, sliceCmp_self xs]

theorem eq_of_sliceCmp_eq_zero : ∀ {a b : List Nat}, sliceCmp a b = 0 → a = b
  | [], [], _ => rfl
  | [], _ :: _, h => by simp [sliceCmp] at h
  | _ :: _, [], h => by simp [sliceCmp] at h
  | a :: as, b :: bs, h => by
    by_cases h1 : a < b
    · simp [sliceCmp, h1] at h
    · by_cases h2 : b < a
      · simp [sliceCmp, h1, h2] at h
      · have hab : a = b := Nat.le_antisymm (Nat.le_of_not_lt h2) (Nat.le_of_not_lt h1)
        have hrec : as = bs :=
          eq_of_sliceCmp_eq_zero (by simpa [sliceCmp, h1, h2] using h)
        rw [hab, hrec]

theorem sliceCmp_eq_zero_iff {a b : List Nat} : sliceCmp a b = 0 ↔ a = b :=
  ⟨eq_of_sliceCmp_eq_zero, fun h => h ▸ sliceCmp_self a⟩

theorem sliceCmp_trichotomy : ∀ a b : List Nat,
    sliceCmp a b = -1 ∨ sliceCmp a b = 0 ∨ sliceCmp a b = 1
  | [], [] => Or.inr (Or.inl rfl)
  | [], _ :: _ => Or.inl rfl
  | _ :: _, [] => Or.inr (Or.inr rfl)
  | a :: as, b :: bs => by
    by_cases h1 : a < b
    · exact Or.inl (by simp [sliceCmp, h1])
    · by_cases h2 : b < a
      · exact Or.inr (Or.inr (by simp [sliceCmp, h1, h2]))
      · simpa [sliceCmp, h1, h2] using sliceCmp_trichotomy as bs

theorem sliceCmp_cons_lt {a b : Nat} {as bs : List Nat} :
    sliceCmp (a :: as) (b :: bs) < 0 ↔ a < b ∨ (a = b ∧ sliceCmp as bs < 0) := by
  by_cases h1 : a < b
  · simp [sliceCmp, h1]
  · by_cases h2 : b < a
    · have hne : a ≠ b := fun h => (h ▸ h2).false
      simp [sliceCmp, h1, h2, hne]
    · have hab : a = b := Nat.le_antisymm (Nat.le_of_not_lt h2) (Nat.le_of_not_lt h1)
      simp [sliceCmp, h1, h2, hab]

theorem sliceCmp_lt_trans : ∀ {a b c : List Nat},
    sliceCmp a b < 0 → sliceCmp b c < 0 → sliceCmp a c < 0
  | [], [], _, h1, _ => by simp [sliceCmp] at h1
  | [], _ :: _, [], _, h2 => by simp [sliceCmp] at h2
  | [], _ :: _, _ :: _, _, _ => by simp [sliceCmp]
  | _ :: _, [], _, h1, _ => by simp [sliceCmp] at h1
  | _ :: _, _ :: _, [], _, h2 => by simp [sliceCmp] at h2
  | a :: as, b :: bs, c :: cs, h1, h2 => by
    rcases sliceCmp_cons_lt.1 h1 with hlt1 | ⟨he1, hr1⟩ <;>
      rcases sliceCmp_cons_lt.1 h2 with hlt2 | ⟨he2, hr2⟩
    · exact sliceCmp_cons_lt.2 (Or.inl (Nat.lt_trans hlt1 hlt2))
    · exact sliceCmp_cons_lt.2 (Or.inl (he2 ▸ hlt1))
    · exact sliceCmp_cons_lt.2 (Or.inl (he1 ▸ hlt2))
    · exact sliceCmp_cons_lt.2 (Or.inr ⟨he1.trans he2, sliceCmp_lt_trans hr1 hr2⟩)

theorem sliceCmp_lt_of_lt_of_le {a b c : List Nat}
    (h1 : sliceCmp a b < 0) (h2 : sliceCmp b c ≤ 0) : sliceCmp a c < 0 := by
  rcases sliceCmp_trichotomy b c with h | h | h
  · exact sliceCmp_lt_trans h1 (by omega)
  · rwa [← eq_of_sliceCmp_eq_zero h]
  · omega

theorem sliceCmp_flip : ∀ a b : List Nat, sliceCmp b a = -sliceCmp a b
  | [], [] => rfl
  | [], _ :: _ => rfl
  | _ :: _, [] => rfl
  | a :: as, b :: bs => by
    by_cases h1 : a < b
    · have h2 : ¬b < a := Nat.lt_asymm h1
      simp [sliceCmp, h1, h2]
    · by_cases h2 : b < a
      · simp [sliceCmp, h1, h2]
      · simp [sliceCmp, h1, h2, sliceCmp_flip as bs]

theorem cmpTag_lt_iff {x y : Nat} : cmpTag x y < 0 ↔ y < x := by
  unfold cmpTag; split <;> rename_i h
  · simpa using h
  · split <;> rename_i h2 <;> omega

theorem cmpTag_eq_zero_iff {x y : Nat} : cmpTag x y = 0 ↔ x = y := by
  unfold cmpTag; split <;> rename_i h
  · constructor <;> intro hc <;> omega
  · split <;> rename_i h2 <;> constructor <;> intro hc <;> omega

theorem cmpK_lt_iff {e : Entry} {u : List Nat} {t : Nat} :
    cmpK e u t < 0 ↔ sliceCmp e.ukey u < 0 ∨ (e.ukey = u ∧ t < e.tag) := by
  unfold cmpK
  split <;> rename_i h
  · have he := eq_of_sliceCmp_eq_zero h
    simp [he, cmpTag_lt_iff, sliceCmp_self]
  · have hne : e.ukey ≠ u := fun hh => h (hh ▸ sliceCmp_self e.ukey)
    simp [hne]

theorem cmpK_eq_zero_iff {e : Entry} {u : List Nat} {t : Nat} :
    cmpK e u t = 0 ↔ e.ukey = u ∧ e.tag = t := by
  unfold cmpK
  split <;> rename_i h
  · have he := eq_of_sliceCmp_eq_zero h
    simp [he, cmpTag_eq_zero_iff]
  · have hne : e.ukey ≠ u := fun hh => h (hh ▸ sliceCmp_self e.ukey)
    simp [hne, h]

theorem cmpIK_lt_iff {a b : Entry} :
    cmpIK a b < 0 ↔ sliceCmp a.ukey b.ukey < 0 ∨ (a.ukey = b.ukey ∧ b.tag < a.tag) :=
  cmpK_lt_iff

theorem cmpIK_lt_trans {a b c : Entry} (h1 : cmpIK a b < 0) (h2 : cmpIK b c < 0) :
    cmpIK a c < 0 := by
  rcases cmpIK_lt_iff.1 h1 with hu1 | ⟨he1, ht1⟩ <;>
    rcases cmpIK_lt_iff.1 h2 with hu2 | ⟨he2, ht2⟩
  · exact cmpIK_lt_iff.2 (Or.inl (sliceCmp_lt_trans hu1 hu2))
  · exact cmpIK_lt_iff.2 (Or.inl (he2 ▸ hu1))
  · exact cmpIK_lt_iff.2 (Or.inl (he1 ▸ hu2))
  · exact cmpIK_lt_iff.2 (Or.inr ⟨he1.trans he2, Nat.lt_trans ht2 ht1⟩)

theorem cmpIK_ukey_le {a b : Entry} (h : cmpIK a b < 0) : sliceCmp a.ukey b.ukey ≤ 0 := by
  rcases cmpIK_lt_iff.1 h with hu | ⟨he, _⟩
  · omega
  · simp [he, sliceCmp_self]

theorem sortedSL_tail {x : Entry} {t : List Entry} (h : sortedSL (x :: t)) : sortedSL t :=
  (List.pairwise_cons.1 h).2

theorem sortedSL_head {x : Entry} {t : List Entry} (h : sortedSL (x :: t)) :
    ∀ e ∈ t, cmpIK x e < 0 :=
  (List.pairwise_cons.1 h).1

/-- The live FIFO chain: node ids reachable from `head_` via `FIFO_next`
(fuel-bounded pointer walk). -/
def chainWalk (st : FifoSt) : Nat → Option Nat → List Nat
  | _, none => []
  | 0, some _ => []
  | fuel + 1, some i => i :: chainWalk st fuel (nxtOf st i)

/-- The node ids on the FIFO chain from `head_`. -/
def fifoChain (st : FifoSt) : List Nat :=
  chainWalk st (st.nodes.length + 1) st.headP

/-- Total byte size of the live FIFO chain. -/
def chainBytes (st : FifoSt) : Nat :=
  ((fifoChain st).map (sizeOfN st)).sum

/-! ## Arithmetic and pointer-store helper lemmas -/

theorem wadd_zero {a : Nat} (h : a < W) : wadd a 0 = a := by
  unfold wadd
  simpa using Nat.mod_eq_of_lt h

theorem wsub_zero {a : Nat} (h : a < W) : wsub a 0 = a := by
  unfold wsub
  have h0 : (0 : Nat) % W = 0 := Nat.zero_mod W
  rw [h0, Nat.sub_zero, Nat.add_mod_right]
  exact Nat.mod_eq_of_lt h

theorem wsub_self {a : Nat} (h : a < W) : wsub a a = 0 := by
  unfold wsub
  rw [Nat.mod_eq_of_lt h]
  have hs : a + (W - a) = W := by omega
  rw [hs, Nat.mod_self]

theorem freezeWalk_ms_zero (st : FifoSt) (fuel : Nat) (tmp : Option Nat) (sum : Nat) :
    freezeWalk st fuel tmp sum 0 = (sum, tmp) := by
  cases fuel <;> simp [freezeWalk]

theorem length_nxt_setNxt (st : FifoSt) (i : Nat) (v : Option Nat) :
    (setNxt st i v).nxt.length = st.nxt.length := by
  simp [setNxt]

theorem nxtOf_setNxt_self (st : FifoSt) {i : Nat} (h : i < st.nxt.length) (v : Option Nat) :
    nxtOf (setNxt st i v) i = v := by
  simp [nxtOf, setNxt, List.get?_eq_getElem?, List.getElem?_set_self h]

theorem nxtOf_setNxt_ne (st : FifoSt) {i j : Nat} (h : i ≠ j) (v : Option Nat) :
    nxtOf (setNxt st i v) j = nxtOf st j := by
  simp [nxtOf, setNxt, List.get?_eq_getElem?, List.getElem?_set_ne h]

theorem nxtOf_setPrv (st : FifoSt) (i j : Nat) (v : Option Nat) :
    nxtOf (setPrv st i v) j = nxtOf st j := rfl

/-! ## Concrete traces used to exercise the code

All sizes are realizable: a node's `byte_size` is
`sizeof(Node) + 8*(height-1) + encoded_len`, and both the threshold and the
key/value lengths are free parameters of the surrounding driver, so any
byte pattern below can be produced by scaling. -/

/-- A 9-add trace (threshold 100) driving the FIFO chain into a corrupted
state: adds 1-6 build hot/cold zones and three obsolete nodes, add 7 thaws
the last cold node (making `head_ == cold_head_ == normal_head_`), add 8
thaws that very node — `DeleteNode` advances `cold_head_` and `head_` but
leaves `normal_head_` dangling on the obsolete node — and add 9 triggers a
freeze pass whose walk follows the dangling pointer through the obsolete
list, subtracting more bytes from `hot_mem` than it holds. -/
def trace9 : List AddOp :=
  [ { ukey := [112], seq := 1, ty := 1, value := [], size := 90 },
    { ukey := [112], seq := 2, ty := 1, value := [], size := 5 },
    { ukey := [113], seq := 3, ty := 1, value := [], size := 90 },
    { ukey := [113], seq := 4, ty := 1, value := [], size := 5 },
    { ukey := [114], seq := 5, ty := 1, value := [], size := 90 },
    { ukey := [114], seq := 6, ty := 1, value := [], size := 5 },
    { ukey := [112], seq := 7, ty := 1, value := [], size := 4 },
    { ukey := [113], seq := 8, ty := 1, value := [], size := 4 },
    { ukey := [115], seq := 9, ty := 1, value := [], size := 500 } ]

/-- The MemTable state after the first `k` adds of `trace9`. -/
def stT (k : Nat) : MemState := runAdds (memInit 100) (trace9.take k)

/-- The state after the full `trace9`. -/
def st9 : MemState := runAdds (memInit 100) trace9

/-- A 2-add trace (threshold 100) whose second add arrives with
`hot_bytes + x.size` exactly equal to the threshold. -/
def opsEq : List AddOp :=
  [ { ukey := [97], seq := 1, ty := 1, value := [], size := 60 },
    { ukey := [98], seq := 2, ty := 1, value := [], size := 40 } ]

/-- The state after `opsEq`. -/
def stEq : MemState := runAdds (memInit 100) opsEq

/-- The FIFO state on which the second add of `opsEq` runs its freeze pass
(node 1 already allocated, exactly as inside `AddInsert`). -/
def fEq1 : FifoSt :=
  { (runAdds (memInit 100) (opsEq.take 1)).fifo with
      nodes := (runAdds (memInit 100) (opsEq.take 1)).fifo.nodes ++
        [{ nid := 1, ukey := [98], tag := 513, value := [], size := 40 }]
      nxt := (runAdds (memInit 100) (opsEq.take 1)).fifo.nxt ++ [none]
      prv := (runAdds (memInit 100) (opsEq.take 1)).fifo.prv ++ [none] }

/-- The second entry of `opsEq` as allocated by `AddInsert`. -/
def xEq2 : Entry := { nid := 1, ukey := [98], tag := 513, value := [], size := 40 }

/-- A 2-add trace (threshold 10) of one user key whose entries are each
oversized, leaving an obsolete older version and no hot zone. -/
def opsOv : List AddOp :=
  [ { ukey := [97], seq := 1, ty := 1, value := [], size := 20 },
    { ukey := [97], seq := 2, ty := 1, value := [], size := 20 } ]

/-- The state after `opsOv`. -/
def stOv : MemState := runAdds (memInit 10) opsOv

/-- The mid-add state of the 7th add of `trace9`, just after skiplist and
FIFO insertion, where duplicate detection runs. -/
def mid7 : MemState × Entry := AddInsert (stT 6) [112] 7 1 [] 4

/-- The superseded node found by the 7th add of `trace9` (cold zone). -/
def p2e : Entry := { nid := 1, ukey := [112], tag := 513, value := [], size := 5 }

/-- The normal-head node during the 7th add of `trace9`. -/
def q4e : Entry := { nid := 3, ukey := [113], tag := 1025, value := [], size := 5 }

/-! ## Claims -/

/-- Claim C1 (code bug): the claim states that after every returning add,
`hot_bytes ≤ threshold` (the sole exception — a single oversized entry —
has `hot_bytes = 0`).  The code violates it: after the 9 adds of `trace9`
(threshold 100), `hot_mem` has wrapped below zero to `2^64 - 177`, far
above the threshold.  Root cause: `DeleteNode` leaves `normal_head_`
dangling on an obsolete node when the deleted node is simultaneously
`head_`, `cold_head_` and `normal_head_`, so the next freeze walk follows
`FIFO_next` pointers through the obsolete list and subtracts more bytes
from `hot_mem` than it holds. -/
theorem C1_code_defect :
    st9.fifo.threshold = 100 ∧ st9.fifo.hot = W - 177 ∧
    st9.fifo.threshold < st9.fifo.hot := by decide

/-- Claim C5 (code bug): the claim states `cold_head ≠ null ⇔
cold_bytes > 0` after every add.  After the two adds of `opsEq`
(threshold 100, sizes 60 and 40), the freeze pass runs with
`hot_bytes + x.size = threshold` exactly (the guard in `FreezeNode` is
`<`, not `≤`), moves zero bytes, yet sets `cold_head_ = head_`: the
resulting state has `cold_head ≠ null` while `cold_bytes = 0`. -/
theorem C5_code_defect : stEq.fifo.coldP = some 0 ∧ stEq.fifo.cold = 0 := by decide

/-- Claim C6 (code bug): the claim states `hot_bytes + cold_bytes` equals
the byte sum of the nodes reachable from `head_` via `fifo_next`.  After
`trace9` the chain from `head_` holds 513 bytes, but the stored counters
sum to `2^64 + 513`: the corrupted freeze walk of the 9th add moved 190
bytes of *obsolete* nodes from `hot_mem` (which underflowed) into
`cold_mem`. -/
theorem C6_code_defect :
    chainBytes st9.fifo = 513 ∧ st9.fifo.hot + st9.fifo.cold = W + 513 ∧
    st9.fifo.hot + st9.fifo.cold ≠ chainBytes st9.fifo := by decide

/-- Claim C9: `MemTable::Seperate` leaves the whole FIFO-chain state —
`head_`, `cold_head_`, `normal_head_`, `cur_node_`, `obsolete_`, both byte
counters, and every node's FIFO pointers — unchanged on both its
true-returning and false-returning paths; it only rewrites the skiplist
level-0 chain. -/
theorem C9_theorem (st : MemState) : ((MemSeperate st).1).fifo = st.fifo := by
  unfold MemSeperate
  split
  · rfl
  · split
    · rfl
    · rfl

/-- Claim C10: `SkipList::Insert` asserts that `FindGreaterOrEqual` does
not return a node comparing equal to the inserted key.  If every
previously added entry has an encoded internal key (user key, tag)
distinct from the new one — the case when sequence numbers are not reused
per user key — the node returned never compares equal, so the assertion
cannot fire. -/
theorem C10_theorem (sl : List Entry) (u : List Nat) (tg : Nat)
    (h : ∀ e ∈ sl, ¬(e.ukey = u ∧ e.tag = tg)) :
    ∀ e, FindGreaterOrEqual sl u tg = some e → ¬ cmpK e u tg = 0 := by
  intro e he hzero
  have hmem : e ∈ sl := by
    unfold FindGreaterOrEqual at he
    cases hdw : sl.dropWhile (fun e => cmpK e u tg < 0) with
    | nil => rw [hdw] at he; simp at he
    | cons a t =>
      rw [hdw] at he
      simp only [List.head?_cons, Option.some.injEq] at he
      have ha : a ∈ sl.dropWhile (fun e => cmpK e u tg < 0) := by
        rw [hdw]; exact List.mem_cons_self a t
      exact he ▸ (List.dropWhile_sublist _).subset ha
  exact h e hmem (cmpK_eq_zero_iff.1 hzero)

/-- The one-entry skiplist used to exercise `C10_theorem`. -/
def slC10 : List Entry := [{ nid := 0, ukey := [97], tag := 257, value := [], size := 50 }]

/-- Witness for `C10_theorem`: inserting `([97], tag 513)` over a list
holding only `([97], tag 257)`, the assertion hypothesis holds and
`FindGreaterOrEqual` lands on a node comparing unequal. -/
theorem C10_witness :
    (∀ e ∈ slC10, ¬(e.ukey = [97] ∧ e.tag = 513)) ∧
    ¬ cmpK { nid := 0, ukey := [97], tag := 257, value := ([] : List Nat), size := 50 } [97] 513 = 0 :=
  ⟨by decide, C10_theorem slC10 [97] 513 (by decide) _ (by decide)⟩

/-- Claim C4 counterexample: on the freeze pass of the second add of
`opsEq`, `hot_bytes + x.size = 100 = threshold` (so `≤ threshold` holds),
yet `FreezeNode` does not leave the state unchanged: it sets
`cold_head_ = head_`. -/
theorem C4_counterexample :
    fEq1.hot + xEq2.size ≤ fEq1.threshold ∧ FreezeNode fEq1 xEq2 ≠ fEq1 := by decide

/-- Claim C4 (amended): the freeze pass transfers bytes only when
`hot_bytes + x.size` strictly exceeds the threshold.  When
`hot_bytes + x.size < threshold` it leaves the state entirely unchanged;
when it equals the threshold it still transfers no bytes and changes no
field except `cold_head_`, which is set to `head_` if it was null while a
hot zone exists. -/
theorem C4_theorem (st : FifoSt) (x : Entry)
    (hsum : st.hot + x.size < W) (hcold : st.cold < W) :
    (st.hot + x.size < st.threshold → FreezeNode st x = st) ∧
    (st.hot + x.size = st.threshold →
      (FreezeNode st x).hot = st.hot ∧ (FreezeNode st x).cold = st.cold ∧
      (FreezeNode st x).headP = st.headP ∧ (FreezeNode st x).normalP = st.normalP ∧
      (FreezeNode st x).tailP = st.tailP ∧ (FreezeNode st x).obsP = st.obsP ∧
      (FreezeNode st x).nodes = st.nodes ∧ (FreezeNode st x).nxt = st.nxt ∧
      (FreezeNode st x).prv = st.prv ∧
      (FreezeNode st x).coldP =
        (if st.normalP = none then st.coldP
         else if st.coldP = none then st.headP else st.coldP)) := by
  have hw : wadd st.hot x.size = st.hot + x.size := Nat.mod_eq_of_lt hsum
  constructor
  · intro hlt
    unfold FreezeNode
    rw [hw]
    simp [hlt]
  · intro heq
    have hT : st.threshold < W := heq ▸ hsum
    have hhot : st.hot < W := lt_of_le_of_lt (Nat.le_add_right _ _) hsum
    have hnl : ¬ (st.hot + x.size < st.threshold) := by omega
    unfold FreezeNode
    rw [hw, heq]
    by_cases hn : st.normalP = none
    · simp [hn]
    · simp only [lt_irrefl, if_false, hn, wsub_self hT, freezeWalk_ms_zero,
        wsub_zero, wadd_zero]
      by_cases hc : st.coldP = none
      · simp [hc, wsub_zero hhot, wadd_zero hcold]
      · simp [hc, wsub_zero hhot, wadd_zero hcold]

/-- Witness for `C4_theorem`: applied to the boundary state of `opsEq`
(the hypotheses `hot + size < 2^64`, `cold < 2^64` hold there), giving the
amended description of `cold_head_` after the equality-case freeze. -/
theorem C4_witness :
    fEq1.hot + xEq2.size < W ∧ fEq1.cold < W ∧
    (FreezeNode fEq1 xEq2).coldP =
      (if fEq1.normalP = none then fEq1.coldP
       else if fEq1.coldP = none then fEq1.headP else fEq1.coldP) :=
  ⟨by decide, by decide,
    (((C4_theorem fEq1 xEq2 (by decide) (by decide)).2 (by decide)).2.2.2.2.2.2.2.2.2)⟩

/-- Claim C8 counterexample: the 4th add of `trace9` thaws node 2 out of
the live chain (the chain goes from `[1, 2]` to `[1, 3]`), yet afterwards
the obsolete pointer still heads at node 0 — node 2 is the *second*
element of the obsolete list, refuting "y is the first element reachable
from the obsolete pointer". -/
theorem C8_counterexample :
    fifoChain (stT 3).fifo = [1, 2] ∧ fifoChain (stT 4).fifo = [1, 3] ∧
    (stT 4).fifo.obsP = some 0 ∧ nxtOf (stT 4).fifo 0 = some 2 := by decide

/-- Claim C8 (amended): `ObsoleteNode` (the final step of Thaw)
head-inserts `y` only when the obsolete list is empty; otherwise the first
element is unchanged and `y` becomes the second element, its successor
being the previous second element. -/
theorem C8_theorem (st : FifoSt) (x : Nat) (hx : x < st.nxt.length) :
    (st.obsP = none →
      (ObsoleteNode st x).obsP = some x ∧ nxtOf (ObsoleteNode st x) x = none) ∧
    (∀ o, st.obsP = some o → o ≠ x → o < st.nxt.length →
      (ObsoleteNode st x).obsP = some o ∧
      nxtOf (ObsoleteNode st x) o = some x ∧
      nxtOf (ObsoleteNode st x) x = nxtOf st o) := by
  constructor
  · intro h0
    unfold ObsoleteNode
    rw [h0]
    refine ⟨rfl, ?_⟩
    rw [nxtOf_setPrv]
    exact nxtOf_setNxt_self _ hx none
  · intro o ho hne hlt
    unfold ObsoleteNode
    rw [ho]
    refine ⟨ho, ?_, ?_⟩
    · have hlt2 : o < (setNxt st x (nxtOf st o)).nxt.length := by
        rw [length_nxt_setNxt]; exact hlt
      exact nxtOf_setNxt_self _ hlt2 (some x)
    · rw [nxtOf_setNxt_ne _ hne]
      exact nxtOf_setNxt_self _ hx (nxtOf st o)

/-- Witness for `C8_theorem`: obsoleting node 3 of the post-4th-add state
of `trace9` (non-empty obsolete list headed by node 0). -/
theorem C8_witness :
    (ObsoleteNode (stT 4).fifo 3).obsP = some 0 ∧
    nxtOf (ObsoleteNode (stT 4).fifo 3) 0 = some 3 ∧
    nxtOf (ObsoleteNode (stT 4).fifo 3) 3 = nxtOf (stT 4).fifo 0 :=
  (C8_theorem (stT 4).fifo 3 (by decide)).2 0 (by decide) (by decide) (by decide)

/-- Claim C3 counterexample: at the 7th add of `trace9` (new entry
`[112]@7`, superseded entry `p2e = [112]@2`, normal head `q4e = [113]@4`),
the code passes `r = CompareSequence(p2e, q4e) = 1` to Thaw, whereas
`CompareSequence(new_entry, normal_head_entry) = -1`: the sign is computed
from the superseded entry, not the newly added one. -/
theorem C3_counterexample :
    AddDetect mid7.1 mid7.2 = some (p2e, 1) ∧
    normalEntry mid7.1 = some q4e ∧
    CompareSequence mid7.2 q4e = -1 := by decide

/-- Claim C3 (amended): when an add detects an older duplicate `y` while
the hot zone is non-empty, the sign passed to Thaw is
`CompareSequence(y, normal_head_entry)` — the *superseded* entry compared
against the current normal head. -/
theorem C3_theorem (st : MemState) (x y n : Entry)
    (hn : normalEntry st = some n) (hy : detectDup st.sl x = some y) :
    AddDetect st x = some (y, CompareSequence y n) := by
  unfold AddDetect
  rw [hy, hn]

/-- Witness for `C3_theorem`: the detection step of the 7th add of
`trace9`. -/
theorem C3_witness :
    AddDetect mid7.1 mid7.2 = some (p2e, CompareSequence p2e q4e) :=
  C3_theorem mid7.1 mid7.2 p2e q4e (by decide) (by decide)

/-- Claim C2 counterexample: after `opsOv` both skiplist nodes are cold
(no normal head, so the claim counts *all* nodes as to-be-visited), but
the rewritten level-0 chain holds only the newest version of the user key:
the obsolete older version is dropped by the `FindNextKey` advance. -/
theorem C2_counterexample :
    (MemSeperate stOv).2 = true ∧ normalEntry stOv = none ∧
    (MemSeperate stOv).1.sl ≠ stOv.sl.filter (fun e => coldKeep none e) := by decide

/-! ## Claim C2: semantic characterization of the separation pass -/

/-- `e` is the newest version of its user key in `l` (no other entry of
the same user key has a larger tag). -/
def isNewest (l : List Entry) (e : Entry) : Prop :=
  ∀ f ∈ l, f.ukey = e.ukey → f.tag ≤ e.tag

instance (l : List Entry) (e : Entry) : Decidable (isNewest l e) :=
  inferInstanceAs (Decidable (∀ f ∈ l, f.ukey = e.ukey → f.tag ≤ e.tag))

instance (l : List Entry) : Decidable (sortedSL l) :=
  inferInstanceAs (Decidable (l.Pairwise fun a b => cmpIK a b < 0))

theorem cmpIK_self (a : Entry) : cmpIK a a = 0 := by
  simp [cmpIK, cmpK, sliceCmp_self, cmpTag]

theorem ukey_lt_of_mem_dropRun {x : Entry} :
    ∀ {t : List Entry}, sortedSL (x :: t) →
      ∀ e ∈ FindNextKey x.ukey t, sliceCmp x.ukey e.ukey < 0
  | [], _, e, he => by simp [FindNextKey] at he
  | y :: t2, hs, e, he => by
    by_cases hp : sliceCmp y.ukey x.ukey = 0
    · rw [FindNextKey, List.dropWhile_cons_of_pos (by simpa using hp)] at he
      have hsub : (x :: t2).Sublist (x :: y :: t2) :=
        List.Sublist.cons₂ x (List.sublist_cons_self y t2)
      exact ukey_lt_of_mem_dropRun (List.Pairwise.sublist hsub hs) e he
    · rw [FindNextKey, List.dropWhile_cons_of_neg (by simpa using hp)] at he
      have hxy : sliceCmp x.ukey y.ukey < 0 := by
        have h1 : cmpIK x y < 0 := sortedSL_head hs y (List.mem_cons_self y t2)
        have h2 := cmpIK_ukey_le h1
        have h3 : sliceCmp x.ukey y.ukey ≠ 0 := by
          intro h0
          have h4 := eq_of_sliceCmp_eq_zero h0
          rw [← h4] at hp
          exact hp (sliceCmp_self x.ukey)
        omega
      rcases List.mem_cons.1 he with rfl | he2
      · exact hxy
      · have h4 : cmpIK y e < 0 := sortedSL_head (sortedSL_tail hs) e he2
        exact sliceCmp_lt_of_lt_of_le hxy (cmpIK_ukey_le h4)

theorem Seperate_skip (ntag : Option Nat) (u : List Nat) :
    ∀ t : List Entry, Seperate ntag (some u) t = Seperate ntag none (FindNextKey u t)
  | [] => rfl
  | y :: t2 => by
    by_cases hp : sliceCmp y.ukey u = 0
    · have hfk : FindNextKey u (y :: t2) = FindNextKey u t2 := by
        rw [FindNextKey, FindNextKey, List.dropWhile_cons_of_pos (by simpa using hp)]
      rw [hfk]
      simp only [Seperate, if_pos hp]
      exact Seperate_skip ntag u t2
    · have hfk : FindNextKey u (y :: t2) = y :: t2 := by
        rw [FindNextKey, List.dropWhile_cons_of_neg (by simpa using hp)]
      rw [hfk]
      simp only [Seperate, if_neg hp]

theorem findFirstCold_skip (ntag : Nat) (u : List Nat) :
    ∀ t : List Entry,
      findFirstCold ntag (some u) t = findFirstCold ntag none (FindNextKey u t)
  | [] => rfl
  | y :: t2 => by
    by_cases hp : sliceCmp y.ukey u = 0
    · have hfk : FindNextKey u (y :: t2) = FindNextKey u t2 := by
        rw [FindNextKey, FindNextKey, List.dropWhile_cons_of_pos (by simpa using hp)]
      rw [hfk]
      simp only [findFirstCold, if_pos hp]
      exact findFirstCold_skip ntag u t2
    · have hfk : FindNextKey u (y :: t2) = y :: t2 := by
        rw [FindNextKey, List.dropWhile_cons_of_neg (by simpa using hp)]
      rw [hfk]
      simp only [findFirstCold, if_neg hp]

theorem findFirstCold_mem (ntag : Nat) :
    ∀ (skip : Option (List Nat)) (l : List Entry) (x0 : Entry),
      findFirstCold ntag skip l = some x0 → x0 ∈ l
  | _, [], x0, h => by simp [findFirstCold] at h
  | some u, x :: t, x0, h => by
    by_cases hp : sliceCmp x.ukey u = 0
    · simp only [findFirstCold, if_pos hp] at h
      exact List.mem_cons_of_mem x (findFirstCold_mem ntag (some u) t x0 h)
    · simp only [findFirstCold, if_neg hp] at h
      by_cases hc : x.tag < ntag
      · simp only [if_pos hc, Option.some.injEq] at h
        exact h ▸ List.mem_cons_self x t
      · simp only [if_neg hc] at h
        exact List.mem_cons_of_mem x (findFirstCold_mem ntag (some x.ukey) t x0 h)
  | none, x :: t, x0, h => by
    by_cases hc : x.tag < ntag
    · simp only [findFirstCold, if_pos hc, Option.some.injEq] at h
      exact h ▸ List.mem_cons_self x t
    · simp only [findFirstCold, if_neg hc] at h
      exact List.mem_cons_of_mem x (findFirstCold_mem ntag (some x.ukey) t x0 h)

theorem isNewest_head {x : Entry} {t : List Entry} (hs : sortedSL (x :: t)) :
    isNewest (x :: t) x := by
  intro f hf he
  rcases List.mem_cons.1 hf with rfl | hf2
  · exact Nat.le_refl _
  · have h1 := sortedSL_head hs f hf2
    rcases cmpIK_lt_iff.1 h1 with hu | ⟨_, ht⟩
    · rw [he] at hu
      simp [sliceCmp_self] at hu
    · omega

theorem isNewest_run_false {x f : Entry} {t : List Entry} (hs : sortedSL (x :: t))
    (hf : f ∈ t) (he : f.ukey = x.ukey) : ¬ isNewest (x :: t) f := by
  intro hn
  have h1 := sortedSL_head hs f hf
  rcases cmpIK_lt_iff.1 h1 with hu | ⟨_, ht⟩
  · rw [he] at hu
    simp [sliceCmp_self] at hu
  · have h2 := hn x (List.mem_cons_self x t) he.symm
    omega

theorem isNewest_cons_of_ne {x e : Entry} {t : List Entry}
    (hne : e.ukey ≠ x.ukey) : isNewest (x :: t) e ↔ isNewest t e := by
  constructor
  · intro h f hf he
    exact h f (List.mem_cons_of_mem x hf) he
  · intro h f hf he
    rcases List.mem_cons.1 hf with rfl | hf2
    · exact absurd he.symm hne
    · exact h f hf2 he

theorem isNewest_append_run {run t2 : List Entry} {e : Entry}
    (hrun : ∀ f ∈ run, f.ukey ≠ e.ukey) : isNewest (run ++ t2) e ↔ isNewest t2 e := by
  constructor
  · intro h f hf he
    exact h f (List.mem_append_right run hf) he
  · intro h f hf he
    rcases List.mem_append.1 hf with h1 | h2
    · exact absurd he (hrun f h1)
    · exact h f h2 he

/-- The per-element predicate of the separation characterization. -/
def keepB (l : List Entry) (ntag : Option Nat) (e : Entry) : Bool :=
  decide (isNewest l e) && coldKeep ntag e

theorem filter_keepB_run_nil {x : Entry} {t run : List Entry} (ntag : Option Nat)
    (hs : sortedSL (x :: t)) (hsub : ∀ f ∈ run, f ∈ t)
    (hall : ∀ f ∈ run, f.ukey = x.ukey) :
    run.filter (keepB (x :: t) ntag) = [] := by
  rw [List.filter_eq_nil_iff]
  intro f hf
  have h1 := isNewest_run_false hs (hsub f hf) (hall f hf)
  simp [keepB, h1]

theorem filter_keepB_drop {x : Entry} {t : List Entry} (ntag : Option Nat)
    (hs : sortedSL (x :: t)) :
    (FindNextKey x.ukey t).filter (keepB (x :: t) ntag) =
      (FindNextKey x.ukey t).filter (keepB (FindNextKey x.ukey t) ntag) := by
  apply List.filter_congr
  intro e he
  have hlt := ukey_lt_of_mem_dropRun hs e he
  have hne : e.ukey ≠ x.ukey := by
    intro h0
    rw [h0, sliceCmp_self] at hlt
    exact absurd hlt (by omega)
  have hrun : ∀ f ∈ t.takeWhile (fun f => sliceCmp f.ukey x.ukey = 0), f.ukey = x.ukey := by
    intro f hf
    have h1 := List.mem_takeWhile_imp hf
    exact eq_of_sliceCmp_eq_zero (by simpa using h1)
  have hT : t.takeWhile (fun f => sliceCmp f.ukey x.ukey = 0) ++ FindNextKey x.ukey t = t := by
    rw [FindNextKey]
    exact List.takeWhile_append_dropWhile _ _
  have hiff : isNewest (x :: t) e ↔ isNewest (FindNextKey x.ukey t) e := by
    rw [isNewest_cons_of_ne hne]
    have happ := @isNewest_append_run (t.takeWhile (fun f => sliceCmp f.ukey x.ukey = 0))
      (FindNextKey x.ukey t) e (fun f hf hfe => hne (hfe ▸ hrun f hf))
    rw [hT] at happ
    exact happ
  simp only [keepB]
  rw [decide_eq_decide.2 hiff]

/-- `SkipList::Seperate` on a sorted chain keeps exactly the entries that
are the newest version of their user key and pass the cold test, in
order. -/
theorem Seperate_eq_filter (ntag : Option Nat) :
    ∀ (n : Nat) (l : List Entry), l.length ≤ n → sortedSL l →
      Seperate ntag none l = l.filter (keepB l ntag)
  | 0, l, hl, _ => by
    have h0 : l = [] := List.length_eq_zero.1 (Nat.le_zero.1 hl)
    subst h0; rfl
  | n + 1, [], _, _ => rfl
  | n + 1, x :: t, hl, hs => by
    have hlen : (FindNextKey x.ukey t).length ≤ n := by
      have h1 : (FindNextKey x.ukey t).length ≤ t.length :=
        List.Sublist.length_le (by rw [FindNextKey]; exact List.dropWhile_sublist _)
      have h2 : t.length ≤ n := by simpa using Nat.le_of_succ_le_succ hl
      omega
    have hsortT : sortedSL t := sortedSL_tail hs
    have hsort : sortedSL (FindNextKey x.ukey t) :=
      List.Pairwise.sublist (by rw [FindNextKey]; exact List.dropWhile_sublist _) hsortT
    have hIH := Seperate_eq_filter ntag n (FindNextKey x.ukey t) hlen hsort
    have hL : Seperate ntag none (x :: t) =
        (if coldKeep ntag x then [x] else []) ++ Seperate ntag none (FindNextKey x.ukey t) := by
      by_cases hc : coldKeep ntag x <;>
        simp [Seperate, hc, Seperate_skip]
    have hrun : ∀ f ∈ t.takeWhile (fun f => sliceCmp f.ukey x.ukey = 0), f.ukey = x.ukey := by
      intro f hf
      have h1 := List.mem_takeWhile_imp hf
      exact eq_of_sliceCmp_eq_zero (by simpa using h1)
    have hT : t.takeWhile (fun f => sliceCmp f.ukey x.ukey = 0) ++ FindNextKey x.ukey t = t := by
      rw [FindNextKey]
      exact List.takeWhile_append_dropWhile _ _
    have hhead : keepB (x :: t) ntag x = coldKeep ntag x := by
      simp [keepB, isNewest_head hs]
    have hrunnil : (t.takeWhile (fun f => sliceCmp f.ukey x.ukey = 0)).filter
        (keepB (x :: t) ntag) = [] := by
      rw [List.filter_eq_nil_iff]
      intro f hf
      have hmem : f ∈ t := by
        rw [← hT]
        exact List.mem_append_left _ hf
      have h1 := isNewest_run_false hs hmem (hrun f hf)
      simp [keepB, h1]
    have hsplit := @List.filter_append _ (keepB (x :: t) ntag)
      (t.takeWhile (fun f => sliceCmp f.ukey x.ukey = 0)) (FindNextKey x.ukey t)
    rw [hT] at hsplit
    have ht2 : t.filter (keepB (x :: t) ntag) =
        (FindNextKey x.ukey t).filter (keepB (FindNextKey x.ukey t) ntag) := by
      rw [hsplit, hrunnil, List.nil_append]
      exact filter_keepB_drop ntag hs
    have hR : (x :: t).filter (keepB (x :: t) ntag) =
        (if coldKeep ntag x then [x] else []) ++
          (FindNextKey x.ukey t).filter (keepB (FindNextKey x.ukey t) ntag) := by
      rw [List.filter_cons, hhead, ← ht2]
      by_cases hc : coldKeep ntag x <;> simp [hc]
    rw [hL, hIH, hR]

/-- After `SetHead` to the first cold entry `x0`, the `Seperate` walk over
the truncated chain still produces the full filter of the original chain:
the entries skipped before `x0` are exactly the non-newest ones and the
newest-but-hot ones, which the filter discards anyway. -/
theorem Seperate_after_setHead (ntag : Nat) :
    ∀ (n : Nat) (l : List Entry), l.length ≤ n → sortedSL l →
      ∀ x0, findFirstCold ntag none l = some x0 →
        Seperate (some ntag) none (l.dropWhile (fun e => cmpIK e x0 < 0)) =
          l.filter (keepB l (some ntag))
  | 0, l, hl, _, x0, h => by
    have h0 : l = [] := List.length_eq_zero.1 (Nat.le_zero.1 hl)
    subst h0; simp [findFirstCold] at h
  | n + 1, [], _, _, x0, h => by simp [findFirstCold] at h
  | n + 1, x :: t, hl, hs, x0, h => by
    have hlen : (FindNextKey x.ukey t).length ≤ n := by
      have h1 : (FindNextKey x.ukey t).length ≤ t.length :=
        List.Sublist.length_le (by rw [FindNextKey]; exact List.dropWhile_sublist _)
      have h2 : t.length ≤ n := by simpa using Nat.le_of_succ_le_succ hl
      omega
    have hsortT : sortedSL t := sortedSL_tail hs
    have hsort : sortedSL (FindNextKey x.ukey t) :=
      List.Pairwise.sublist (by rw [FindNextKey]; exact List.dropWhile_sublist _) hsortT
    by_cases hx : x.tag < ntag
    · -- the head itself is the first cold entry: SetHead keeps the whole chain
      have hx0 : x0 = x := by
        simp only [findFirstCold, if_pos hx, Option.some.injEq] at h
        exact h.symm
      subst hx0
      have hdw : (x0 :: t).dropWhile (fun e => cmpIK e x0 < 0) = x0 :: t :=
        List.dropWhile_cons_of_neg (by simp [cmpIK_self])
      rw [hdw]
      exact Seperate_eq_filter (some ntag) (n + 1) (x0 :: t) hl hs
    · -- the head is hot: the search continues past the head run
      simp only [findFirstCold, if_neg hx] at h
      rw [findFirstCold_skip] at h
      have hx0mem : x0 ∈ FindNextKey x.ukey t := findFirstCold_mem ntag none _ x0 h
      have hx0memt : x0 ∈ t :=
        (by rw [FindNextKey]; exact List.dropWhile_sublist _ : (FindNextKey x.ukey t).Sublist t).subset hx0mem
      have hxx0 : cmpIK x x0 < 0 := sortedSL_head hs x0 hx0memt
      have hrun : ∀ f ∈ t.takeWhile (fun f => sliceCmp f.ukey x.ukey = 0), f.ukey = x.ukey := by
        intro f hf
        have h1 := List.mem_takeWhile_imp hf
        exact eq_of_sliceCmp_eq_zero (by simpa using h1)
      have hT : t.takeWhile (fun f => sliceCmp f.ukey x.ukey = 0) ++ FindNextKey x.ukey t = t := by
        rw [FindNextKey]
        exact List.takeWhile_append_dropWhile _ _
      have hrunlt : ∀ f ∈ t.takeWhile (fun f => sliceCmp f.ukey x.ukey = 0), cmpIK f x0 < 0 := by
        intro f hf
        have hpw := (List.pairwise_append.1 (by rw [hT]; exact hsortT)).2.2
        exact hpw f hf x0 hx0mem
      have hda := @List.dropWhile_append_of_pos _ (fun e => cmpIK e x0 < 0)
        (t.takeWhile (fun f => sliceCmp f.ukey x.ukey = 0)) (FindNextKey x.ukey t)
        (by intro a ha; simpa using hrunlt a ha)
      rw [hT] at hda
      have hdw : (x :: t).dropWhile (fun e => cmpIK e x0 < 0) =
          (FindNextKey x.ukey t).dropWhile (fun e => cmpIK e x0 < 0) := by
        rw [List.dropWhile_cons_of_pos (by simpa using hxx0), hda]
      rw [hdw]
      have hIH := Seperate_after_setHead ntag n (FindNextKey x.ukey t) hlen hsort x0 h
      rw [hIH]
      -- now relate the filters of the truncated and the full chain
      have hhead : keepB (x :: t) (some ntag) x = false := by
        simp [keepB, coldKeep, hx]
      have hrunnil : (t.takeWhile (fun f => sliceCmp f.ukey x.ukey = 0)).filter
          (keepB (x :: t) (some ntag)) = [] := by
        rw [List.filter_eq_nil_iff]
        intro f hf
        have hmem : f ∈ t := by
          rw [← hT]
          exact List.mem_append_left _ hf
        have h1 := isNewest_run_false hs hmem (hrun f hf)
        simp [keepB, h1]
      have hsplit := @List.filter_append _ (keepB (x :: t) (some ntag))
        (t.takeWhile (fun f => sliceCmp f.ukey x.ukey = 0)) (FindNextKey x.ukey t)
      rw [hT] at hsplit
      rw [List.filter_cons, if_neg (by simp [hhead]), hsplit, hrunnil, List.nil_append]
      exact (filter_keepB_drop (some ntag) hs).symm


/-- Claim C2 (amended): after `MemTable::Seperate` returns true, a forward
level-0 iteration from the sentinel visits exactly the skiplist entries
that are the *newest version of their user key* and satisfy
`compare_sequence(e, N) > 0` for the normal-head entry `N` observed at the
start (all newest-per-key entries when there was no normal head), in
user-key-ascending order, as a plain list terminating in null.  Superseded
(obsolete) versions are never visited, which corrects the original "all
nodes" reading. -/
theorem C2_theorem (st : MemState) (hs : sortedSL st.sl)
    (ht : (MemSeperate st).2 = true) :
    (MemSeperate st).1.sl =
      st.sl.filter (keepB st.sl ((normalEntry st).map Entry.tag)) ∧
    sortedSL ((MemSeperate st).1.sl) := by
  have hmain : (MemSeperate st).1.sl =
      st.sl.filter (keepB st.sl ((normalEntry st).map Entry.tag)) := by
    cases hn : normalEntry st with
    | none =>
      simp only [MemSeperate, hn, Option.map_none']
      exact Seperate_eq_filter none st.sl.length st.sl (Nat.le_refl _) hs
    | some n =>
      cases hf : findFirstCold n.tag none st.sl with
      | none =>
        exfalso
        have hff := ht
        simp only [MemSeperate, hn, hf] at hff
        exact Bool.false_ne_true hff
      | some x0 =>
        simp only [MemSeperate, hn, hf, Option.map_some']
        exact Seperate_after_setHead n.tag st.sl.length st.sl (Nat.le_refl _) hs x0 hf
  refine ⟨hmain, ?_⟩
  rw [hmain]
  exact List.Pairwise.sublist (List.filter_sublist _) hs

/-- Witness for `C2_theorem`, at the post-`opsOv` state (no normal head,
one obsolete version): the rewritten chain equals the newest-per-key cold
filter. -/
theorem C2_witness :
    sortedSL stOv.sl ∧ (MemSeperate stOv).2 = true ∧
    (MemSeperate stOv).1.sl =
      stOv.sl.filter (keepB stOv.sl ((normalEntry stOv).map Entry.tag)) :=
  ⟨by decide, by decide, (C2_theorem stOv (by decide) (by decide)).1⟩

/-! ## Claim C7: Get against the visible version -/

/-- The visible version of user key `u` at lookup tag `mtag`: the first
(hence newest, in a sorted chain) entry with that user key whose tag is at
or below the lookup tag. -/
def visibleVersion (sl : List Entry) (u : List Nat) (mtag : Nat) : Option Entry :=
  (sl.filter (fun e => sliceCmp e.ukey u = 0 ∧ e.tag ≤ mtag)).head?

theorem seek_visible (u : List Nat) (mtag : Nat) :
    ∀ l : List Entry, sortedSL l →
      ((l.dropWhile (fun e => cmpK e u mtag < 0)).head? = none →
        visibleVersion l u mtag = none) ∧
      (∀ e, (l.dropWhile (fun e => cmpK e u mtag < 0)).head? = some e →
        (sliceCmp e.ukey u = 0 → visibleVersion l u mtag = some e) ∧
        (¬ sliceCmp e.ukey u = 0 → visibleVersion l u mtag = none))
  | [], _ => ⟨fun _ => rfl, fun e he => by cases he⟩
  | x :: t, hs => by
    by_cases hx : cmpK x u mtag < 0
    · have hpred : ¬ (sliceCmp x.ukey u = 0 ∧ x.tag ≤ mtag) := by
        rcases cmpK_lt_iff.1 hx with hu | ⟨he, hm⟩
        · rintro ⟨h0, -⟩
          omega
        · rintro ⟨-, h1⟩
          omega
      have hv : visibleVersion (x :: t) u mtag = visibleVersion t u mtag := by
        unfold visibleVersion
        rw [List.filter_cons_of_neg (by simpa using hpred)]
      rw [List.dropWhile_cons_of_pos (by simpa using hx), hv]
      exact seek_visible u mtag t (sortedSL_tail hs)
    · have hdw : (x :: t).dropWhile (fun e => cmpK e u mtag < 0) = x :: t :=
        List.dropWhile_cons_of_neg (by simpa using hx)
      rw [hdw]
      refine ⟨?_, fun e he => ?_⟩
      · intro h
        simp at h
      have he2 : e = x := by
        simp only [List.head?_cons, Option.some.injEq] at he
        exact he.symm
      subst he2
      constructor
      · intro hu
        have hle : e.tag ≤ mtag := by
          unfold cmpK at hx
          rw [if_pos hu] at hx
          rcases Nat.lt_or_ge mtag e.tag with h1 | h1
          · exact absurd (cmpTag_lt_iff.2 h1) hx
          · exact h1
        unfold visibleVersion
        rw [List.filter_cons_of_pos (by simp [hu, hle])]
        rfl
      · intro hu
        have hgt : sliceCmp e.ukey u = 1 := by
          rcases sliceCmp_trichotomy e.ukey u with h1 | h1 | h1
          · exfalso
            apply hx
            unfold cmpK
            rw [if_neg hu, h1]
            omega
          · exact absurd h1 hu
          · exact h1
        unfold visibleVersion
        rw [List.filter_eq_nil_iff.2 ?_]
        · rfl
        · intro f hf
          rcases List.mem_cons.1 hf with rfl | hf2
          · simp [hu]
          · have h1 : cmpIK e f < 0 := sortedSL_head hs f hf2
            have h2 : sliceCmp u e.ukey < 0 := by
              have := sliceCmp_flip e.ukey u
              omega
            have h3 : sliceCmp u f.ukey < 0 :=
              sliceCmp_lt_of_lt_of_le h2 (cmpIK_ukey_le h1)
            have h4 : sliceCmp f.ukey u ≠ 0 := by
              intro h0
              rw [eq_of_sliceCmp_eq_zero h0] at h3
              rw [sliceCmp_self] at h3
              omega
            simp [h4]

/-- Claim C7 (amended): `MemTable::Get` returns true and copies the value
when the visible version of the user key is a Put; it returns true and
reports NotFound through the status when the visible version is a
Deletion; and when there is no visible version (the seek lands on a
different user key or the iterator is invalid) it returns false with the
status left untouched.  The result triple is
(found, copied value, status set to NotFound). -/
theorem C7_theorem (st : MemState) (u : List Nat) (s : Nat) (hs : sortedSL st.sl) :
    (∀ e, visibleVersion st.sl u (s * 256 + 1) = some e →
      (e.tag % 256 = 1 → MemGet st u s = (true, some e.value, false)) ∧
      (e.tag % 256 = 0 → MemGet st u s = (true, none, true))) ∧
    (visibleVersion st.sl u (s * 256 + 1) = none →
      MemGet st u s = (false, none, false)) := by
  have hseek := seek_visible u (s * 256 + 1) st.sl hs
  cases hh : (st.sl.dropWhile (fun e => cmpK e u (s * 256 + 1) < 0)).head? with
  | none =>
    have hM : MemGet st u s = (false, none, false) := by
      unfold MemGet
      simp only [hh]
    have hv := hseek.1 hh
    refine ⟨fun e he => ?_, fun _ => hM⟩
    rw [hv] at he
    cases he
  | some e0 =>
    have hv2 := hseek.2 e0 hh
    by_cases hu : sliceCmp e0.ukey u = 0
    · have hv := hv2.1 hu
      refine ⟨fun e he => ?_, fun hnone => ?_⟩
      · rw [hv, Option.some.injEq] at he
        subst he
        constructor
        · intro h1
          unfold MemGet
          simp only [hh]
          rw [if_pos hu, if_pos h1]
        · intro h0
          have h1 : ¬ e0.tag % 256 = 1 := by omega
          unfold MemGet
          simp only [hh]
          rw [if_pos hu, if_neg h1, if_pos h0]
      · rw [hv] at hnone
        cases hnone
    · have hv := hv2.2 hu
      refine ⟨fun e he => ?_, fun _ => ?_⟩
      · rw [hv] at he
        cases he
      · unfold MemGet
        simp only [hh]
        rw [if_neg hu]

/-- The one-add state used for the Get claims: Put of user key `[97]` at
sequence 10 with value `[118]`. -/
def stG : MemState :=
  runAdds (memInit 1000) [{ ukey := [97], seq := 10, ty := 1, value := [118], size := 50 }]

/-- The single entry of `stG`. -/
def gE : Entry := { nid := 0, ukey := [97], tag := 2561, value := [118], size := 50 }

/-- Claim C7 counterexample: a lookup for the absent user key `[98]`
returns false and leaves the status untouched — it does *not* report
NotFound through the status output, contrary to the claim's "reports
NotFound ... when no matching user key exists". -/
theorem C7_counterexample :
    MemGet stG [98] 10 = (false, none, false) ∧
    (∀ e ∈ stG.sl, e.ukey ≠ [98]) := by decide

/-- Witness for `C7_theorem`: a Put visible at horizon 11 is returned with
its value and an untouched status. -/
theorem C7_witness :
    sortedSL stG.sl ∧ visibleVersion stG.sl [97] (11 * 256 + 1) = some gE ∧
    MemGet stG [97] 11 = (true, some [118], false) :=
  ⟨by decide, by decide,
    ((C7_theorem stG [97] 11 (by decide)).1 gE (by decide)).1 (by decide)⟩

end TwoQ
